import Mathlib

/-!
# Verification of the SPFx `project upgrade` command

A shallow embedding of `src/o365/spfx/commands/project/project-upgrade.ts`.
Pure functions of the TypeScript source are translated into Lean functions;
the command's interaction with the filesystem is modelled by an explicit
`FS`/`Env` record of oracles plus a trace of filesystem operations, and the
command's callback/logging behaviour is modelled as explicit result lists.
External collaborators that the source imports from outside this file
(`JSON.parse`, `Utils.removeSingleLineComments`, `Utils.getAllFiles`,
`require` of a rule catalog, rule objects) are parameters of the model.
-/

namespace Spfx

/-- Model of a parsed JSON document (result of `JSON.parse`). -/
inductive JValue where
  | jnull
  | jbool (b : Bool)
  | jnum (n : Int)
  | jstr (s : String)
  | jarr (elems : List JValue)
  | jobj (fields : List (String × JValue))

/-- JavaScript truthiness of a parsed JSON value (`if (x)`). -/
def JValue.truthy : JValue → Bool
  | .jnull => false
  | .jbool b => b
  | .jnum n => n != 0
  | .jstr s => s ≠ ""
  | .jarr _ => true
  | .jobj _ => true

/-- JavaScript property access `x[k]` on a parsed value: `none` models
`undefined` (absent field or access on a non-object). -/
def JValue.getField : JValue → String → Option JValue
  | .jobj fields, k => (fields.find? (fun p => p.1 = k)).map (·.2)
  | _, _ => none

/-- String extraction for a JSON value that the source treats as a string. -/
def JValue.asString : JValue → String
  | .jstr s => s
  | _ => ""

/-- Modelled from the spec: the `Finding` record emitted by a rule
(`Finding` is declared in `./project-upgrade/`, which is not part of the
given sources). Per §3 of the spec it carries a stable `id` (the
deduplication key), human-facing `title`, `description` and `severity`,
the pertinent `file`, a `resolutionType` determining rendering, and the
`resolution` payload. -/
structure Finding where
  id : String
  title : String
  description : String
  severity : String
  file : String
  resolutionType : String
  resolution : String
deriving DecidableEq, Repr

/-- Modelled from the spec: a `Manifest` (declared in
`./project-upgrade/model`, not part of the given sources) is a parsed
manifest document annotated with the path it was read from; the source
assigns `manifest.path = f` after parsing. -/
structure Manifest where
  value : JValue
  path : List String

/-- Modelled from the spec: the `Project` aggregate (declared in
`./project-upgrade/model`, not part of the given sources): a path plus one
optional slot per recognized configuration document, exactly the slots the
source's `getProject` assigns, and the discovered manifests. -/
structure Project where
  path : List String
  configJson : Option JValue := none
  copyAssetsJson : Option JValue := none
  deployAzureStorageJson : Option JValue := none
  packageJson : Option JValue := none
  packageSolutionJson : Option JValue := none
  serveJson : Option JValue := none
  tsConfigJson : Option JValue := none
  tsLintJson : Option JValue := none
  writeManifestsJson : Option JValue := none
  yoRcJson : Option JValue := none
  manifests : List Manifest := []

/-- A rule (`Rule` of `./project-upgrade/rules/Rule`, external to the given
sources): `visit(project, findings)` reads the project and appends findings;
modelled as a function from the project and the accumulated list to the new
accumulated list. -/
def Rule := Project → List Finding → List Finding

/-- A filesystem operation performed by the command. `writePath` is the
operation the command is claimed never to perform; the embedding of each
source function records the operations it performs. -/
inductive FsOp where
  | statPath (p : List String)
  | readPath (p : List String)
  | listDir (p : List String)
  | writePath (p : List String) (content : String)
deriving DecidableEq, Repr

/-- `true` for the filesystem operations that only inspect the filesystem. -/
def FsOp.readOnly : FsOp → Bool
  | .statPath _ => true
  | .readPath _ => true
  | .listDir _ => true
  | .writePath _ _ => false

/-- The filesystem as seen by the command: paths are lists of components
(`a/b/c` is `["a","b","c"]`; `path.resolve(p, '..')` drops the last
component and the root is its own parent). `pathExists` models
`fs.existsSync`, `readFile` models `fs.readFileSync` (`none` = the read
throws), `listFiles` models `Utils.getAllFiles` (external utility). -/
structure FS where
  pathExists : List String → Bool
  readFile : List String → Option String
  listFiles : List String → List (List String)

/-- The command's environment: the filesystem, the external `JSON.parse`
(`none` = parse throws), the external `Utils.removeSingleLineComments`,
the rule-catalog loader (`require('./project-upgrade/upgrade-' + v)`,
`Except.error` = the `require` throws), the working directory, and the
current date string used by the md report. -/
structure Env where
  fs : FS
  parseJson : String → Option JValue
  stripComments : String → String
  loadCatalog : String → Except String (List Rule)
  cwd : List String
  today : String

/-- The errors the command reports through its callback, one constructor
per `CommandError` site of `commandAction`. -/
inductive CmdError where
  | noProjectRootFolder
  | unsupportedTargetVersion (toVersion : String) (supported : List String)
  | versionNotDetermined
  | unsupportedCurrentVersion (v : String)
  | cannotDowngrade
  | noUpgradeNeeded
  | ruleCatalogLoadFailed (e : String)
deriving DecidableEq, Repr

/-- The source's hard-coded catalog of supported versions
(`supportedVersions`, in ascending order of upgradability). -/
def supportedVersions : List String := ["1.4.1", "1.5.0"]

/-- The version-path planning checks of `commandAction` (lines 57-96):
target supported (JS `indexOf(toVersion) < 0` is membership), current
version detected and truthy (line 63's `if (!this.projectVersion)` also
fires on the empty string, which is falsy in JavaScript — reachable when
the core-library dependency version strips to nothing, e.g. `"*"`),
current supported, no downgrade (`pos >` target's), not already up to
date (`pos ===`), otherwise the versions to upgrade to:
`supportedVersions.slice(pos + 1).reverse()`. -/
def planUpgrade (catalog : List String) (toVersion : String)
    (projectVersion : Option String) : Except CmdError (List String) :=
  if toVersion ∈ catalog then
    match projectVersion with
    | none => .error CmdError.versionNotDetermined
    | some v =>
      if v = "" then .error CmdError.versionNotDetermined
      else if v ∈ catalog then
        if catalog.indexOf v > catalog.indexOf toVersion then
          .error CmdError.cannotDowngrade
        else if catalog.indexOf v = catalog.indexOf toVersion then
          .error CmdError.noUpgradeNeeded
        else
          .ok ((catalog.drop (catalog.indexOf v + 1)).reverse)
      else .error (CmdError.unsupportedCurrentVersion v)
  else .error (CmdError.unsupportedTargetVersion toVersion catalog)

/-- The dedupe step of `commandAction` (lines 110-114): keep the finding at
index `i` exactly when `i` equals the `findIndex` of the first finding with
the same `id`. -/
def dedupe (allFindings : List Finding) : List Finding :=
  (allFindings.enum.filter
      (fun p => allFindings.findIdx (fun f1 => f1.id == p.2.id) == p.1)).map
    Prod.snd

/-- `getProjectRoot` (lines 324-338): starting from a folder, return it if
it contains `package.json`, otherwise recurse into the parent; stop with
`null` when the parent equals the folder (the filesystem root). The second
component is the trace of filesystem operations performed. -/
def getProjectRootT (fs : FS) (p : List String) :
    Option (List String) × List FsOp :=
  if fs.pathExists (p ++ ["package.json"]) then
    (some p, [FsOp.statPath (p ++ ["package.json"])])
  else if p = [] then
    (none, [FsOp.statPath (p ++ ["package.json"])])
  else
    let r := getProjectRootT fs p.dropLast
    (r.1, FsOp.statPath (p ++ ["package.json"]) :: r.2)
termination_by p.length
decreasing_by
  cases p with
  | nil => simp_all
  | cons a l => simp only [List.length_dropLast, List.length_cons]; omega

/-- The character filter of `coreLibVersion.replace(/[^0-9\.]/g, '')`. -/
def stripNonVersionChars (s : String) : String :=
  String.mk (s.toList.filter (fun c => c.isDigit || c == '.'))

/-- The `.yo-rc.json` probe of `getProjectVersion` (lines 341-351): if the
file exists, parse it (plain `JSON.parse`, no comment stripping) and
return `['@microsoft/generator-sharepoint'].version` when that chain of
accesses is truthy; every failure yields `none` (falls through). -/
def yoRcVersion (env : Env) (root : List String) : Option String :=
  if env.fs.pathExists (root ++ [".yo-rc.json"]) then
    match env.fs.readFile (root ++ [".yo-rc.json"]) with
    | some s =>
      match env.parseJson s with
      | some yoRc =>
        if yoRc.truthy then
          match yoRc.getField "@microsoft/generator-sharepoint" with
          | some gen =>
            if gen.truthy then
              match gen.getField "version" with
              | some v => if v.truthy then some v.asString else none
              | none => none
            else none
          | none => none
        else none
      | none => none
    | none => none
  else none

/-- The `package.json` fallback of `getProjectVersion` (lines 353-363):
read and parse (plain `JSON.parse`), and return
`dependencies['@microsoft/sp-core-library']` with non-version characters
stripped when that chain of accesses is truthy; a throwing read or parse
is caught and yields `none`. -/
def pkgVersion (env : Env) (root : List String) : Option String :=
  match env.fs.readFile (root ++ ["package.json"]) with
  | some s =>
    match env.parseJson s with
    | some pj =>
      if pj.truthy then
        match pj.getField "dependencies" with
        | some deps =>
          if deps.truthy then
            match deps.getField "@microsoft/sp-core-library" with
            | some clv =>
              if clv.truthy then some (stripNonVersionChars clv.asString)
              else none
            | none => none
          else none
        | none => none
      else none
    | none => none
  | none => none

/-- `getProjectVersion` (lines 340-366): the `.yo-rc.json` probe, falling
back to the `package.json` probe (which reads `package.json` only when the
first probe produced nothing). The second component is the trace of
filesystem operations: the existence check and (when present) read of
`.yo-rc.json`, then the attempted read of `package.json` on the fallback
path. -/
def getProjectVersionT (env : Env) (root : List String) :
    Option String × List FsOp :=
  let yoRcPath := root ++ [".yo-rc.json"]
  let pkgPath := root ++ ["package.json"]
  let t :=
    if env.fs.pathExists yoRcPath then
      [FsOp.statPath yoRcPath, FsOp.readPath yoRcPath]
    else [FsOp.statPath yoRcPath]
  match yoRcVersion env root with
  | some v => (some v, t)
  | none => (pkgVersion env root, t ++ [FsOp.readPath pkgPath])

/-- One optional-configuration-document read of `getProject`: check
existence, read, strip single-line comments, parse; a missing file, a
throwing read or a failing parse all yield the unset slot (`none`). -/
def readConfigT (env : Env) (p : List String) : Option JValue × List FsOp :=
  if env.fs.pathExists p then
    match env.fs.readFile p with
    | some s =>
      (env.parseJson (env.stripComments s), [FsOp.statPath p, FsOp.readPath p])
    | none => (none, [FsOp.statPath p, FsOp.readPath p])
  else (none, [FsOp.statPath p])

/-- The fixed set of recognized configuration documents of `getProject`,
one constructor per slot the source assigns. -/
inductive ConfigDocKind where
  | configJson
  | copyAssetsJson
  | deployAzureStorageJson
  | packageJson
  | packageSolutionJson
  | serveJson
  | tsConfigJson
  | tsLintJson
  | writeManifestsJson
  | yoRcJson
deriving DecidableEq, Repr

/-- The path, relative to the project root, that `getProject` reads for
each recognized configuration document. -/
def ConfigDocKind.relPath : ConfigDocKind → List String
  | .configJson => ["config", "config.json"]
  | .copyAssetsJson => ["config", "copy-assets.json"]
  | .deployAzureStorageJson => ["config", "deploy-azure-storage.json"]
  | .packageJson => ["package.json"]
  | .packageSolutionJson => ["config", "package-solution.json"]
  | .serveJson => ["config", "serve.json"]
  | .tsConfigJson => ["tsconfig.json"]
  | .tsLintJson => ["config", "tslint.json"]
  | .writeManifestsJson => ["config", "write-manifests.json"]
  | .yoRcJson => [".yo-rc.json"]

/-- The `Project` slot that `getProject` assigns for each recognized
configuration document. -/
def Project.slot (pr : Project) : ConfigDocKind → Option JValue
  | .configJson => pr.configJson
  | .copyAssetsJson => pr.copyAssetsJson
  | .deployAzureStorageJson => pr.deployAzureStorageJson
  | .packageJson => pr.packageJson
  | .packageSolutionJson => pr.packageSolutionJson
  | .serveJson => pr.serveJson
  | .tsConfigJson => pr.tsConfigJson
  | .tsLintJson => pr.tsLintJson
  | .writeManifestsJson => pr.writeManifestsJson
  | .yoRcJson => pr.yoRcJson

/-- Whether a discovered file is a manifest: the source tests
`f.endsWith('.manifest.json')` on the path string; on the component list
this is the test on the last component (the suffix contains no
separator). -/
def isManifestPath (f : List String) : Bool :=
  (f.getLastD "").endsWith ".manifest.json"

/-- `getProject` (lines 135-236): read the ten recognized configuration
documents into their slots, then walk `src` and parse every
`*.manifest.json` file, attaching the originating path and skipping any
file whose read or parse fails. Returns the project and the trace of
filesystem operations. -/
def getProjectT (env : Env) (root : List String) : Project × List FsOp :=
  let r1 := readConfigT env (root ++ ConfigDocKind.configJson.relPath)
  let r2 := readConfigT env (root ++ ConfigDocKind.copyAssetsJson.relPath)
  let r3 := readConfigT env (root ++ ConfigDocKind.deployAzureStorageJson.relPath)
  let r4 := readConfigT env (root ++ ConfigDocKind.packageJson.relPath)
  let r5 := readConfigT env (root ++ ConfigDocKind.packageSolutionJson.relPath)
  let r6 := readConfigT env (root ++ ConfigDocKind.serveJson.relPath)
  let r7 := readConfigT env (root ++ ConfigDocKind.tsConfigJson.relPath)
  let r8 := readConfigT env (root ++ ConfigDocKind.tsLintJson.relPath)
  let r9 := readConfigT env (root ++ ConfigDocKind.writeManifestsJson.relPath)
  let r10 := readConfigT env (root ++ ConfigDocKind.yoRcJson.relPath)
  let files := env.fs.listFiles (root ++ ["src"])
  let manifestFiles := files.filter isManifestPath
  let manifests : List Manifest := manifestFiles.filterMap (fun f =>
    match env.fs.readFile f with
    | some s =>
      match env.parseJson (env.stripComments s) with
      | some v => some { value := v, path := f }
      | none => none
    | none => none)
  ({ path := root
     configJson := r1.1
     copyAssetsJson := r2.1
     deployAzureStorageJson := r3.1
     packageJson := r4.1
     packageSolutionJson := r5.1
     serveJson := r6.1
     tsConfigJson := r7.1
     tsLintJson := r8.1
     writeManifestsJson := r9.1
     yoRcJson := r10.1
     manifests := manifests },
   r1.2 ++ r2.2 ++ r3.2 ++ r4.2 ++ r5.2 ++ r6.2 ++ r7.2 ++ r8.2 ++ r9.2 ++
     r10.2 ++ [FsOp.listDir (root ++ ["src"])] ++
     manifestFiles.map FsOp.readPath)

/-- Lookup in an insertion-ordered string-keyed dictionary, the model of
reading `obj[key]` on the source's keyed collections (`none` models
`undefined`). -/
def lookupA {α : Type} : List (String × α) → String → Option α
  | [], _ => none
  | p :: l, k => if p.1 = k then some p.2 else lookupA l k

/-- Assignment `obj[key] = v` on an insertion-ordered string-keyed
dictionary: replace in place when the key is present (JavaScript keeps the
original key position), append otherwise. -/
def setA {α : Type} (l : List (String × α)) (k : String) (v : α) :
    List (String × α) :=
  if (lookupA l k).isSome then
    l.map (fun p => if p.1 = k then (k, v) else p)
  else l ++ [(k, v)]

/-- `EOL` of `os` on the platform the report is generated on. -/
def EOL : String := "\n"

/-- The per-finding `resolution` string of `getMdReport` (lines 245-263):
a fenced `sh` block for `cmd`, a fenced `json` block naming the file for
`json`, empty otherwise. -/
def renderResolution (f : Finding) : String :=
  if f.resolutionType = "cmd" then
    "Execute the following command:\n\n```sh\n" ++ f.resolution ++ "\n```\n"
  else if f.resolutionType = "json" then
    "In file [" ++ f.file ++ "](" ++ f.file ++
      ") update the code as follows:\n\n```json\n" ++ f.resolution ++
      "\n```\n"
  else ""

/-- The eleven strings `getMdReport` pushes onto `findingsToReport` for one
finding (lines 279-288). -/
def findingBlockStrings (f : Finding) : List String :=
  ["### " ++ f.id ++ " " ++ f.title ++ " | " ++ f.severity, EOL,
   EOL,
   f.description, EOL,
   EOL,
   renderResolution f,
   EOL,
   "File: [" ++ f.file ++ "](" ++ f.file ++ ")", EOL,
   EOL]

/-- The four accumulators of `getMdReport`: `commandsToExecute`,
`findingsToReport`, and the keyed collections `modificationPerFile` and
`modificationTypePerFile` (insertion-ordered). -/
structure MdAcc where
  commandsToExecute : List String
  findingsToReport : List String
  modificationPerFile : List (String × List String)
  modificationTypePerFile : List (String × String)
deriving DecidableEq, Repr

/-- One iteration of the `findings.forEach` loop of `getMdReport`
(lines 244-289): a `cmd` finding is appended to the command script; any
other finding is grouped under its file (creating the entry on first
sight), the file's block type is set when currently absent or falsy
(the empty string is falsy in JavaScript), and the resolution is pushed
onto the file's list; every finding appends its narrative block. -/
def mdStep (acc : MdAcc) (f : Finding) : MdAcc :=
  let acc1 :=
    if f.resolutionType = "cmd" then
      { acc with commandsToExecute := acc.commandsToExecute ++ [f.resolution] }
    else
      let mpf :=
        if (lookupA acc.modificationPerFile f.file).isSome then
          acc.modificationPerFile
        else acc.modificationPerFile ++ [(f.file, [])]
      let mtf :=
        if (lookupA acc.modificationTypePerFile f.file).getD "" = "" then
          setA acc.modificationTypePerFile f.file f.resolutionType
        else acc.modificationTypePerFile
      let mpf := setA mpf f.file ((lookupA mpf f.file).getD [] ++ [f.resolution])
      { acc with modificationPerFile := mpf, modificationTypePerFile := mtf }
  { acc1 with findingsToReport := acc1.findingsToReport ++ findingBlockStrings f }

/-- The accumulator state of `getMdReport` after its `findings.forEach`
loop. -/
def mdParts (findings : List Finding) : MdAcc :=
  findings.foldl mdStep ⟨[], [], [], []⟩

/-- The context `getMdReport` reads from the command instance: the project
root (for the title's basename), the target version, and the generation
date. -/
structure MdCtx where
  projectRootPath : List String
  toVersion : String
  today : String

/-- The `### Modify files` entry of one file in the md summary
(lines 311-317): a heading and every modification, each in a fenced block
tagged with the file's recorded modification type. -/
def mdFileSection (types : List (String × String)) (e : String × List String) :
    String :=
  String.join
    ["#### [" ++ e.1 ++ "](" ++ e.1 ++ ")", EOL,
     EOL,
     String.intercalate (EOL ++ EOL)
       (e.2.map (fun m =>
         "```" ++ (lookupA types e.1).getD "" ++ EOL ++ m ++ EOL ++ "```")),
     EOL]

/-- `getMdReport` (lines 238-322): the narrative report assembled from the
accumulators, joined and trimmed. -/
def getMdReport (ctx : MdCtx) (findings : List Finding) : String :=
  let acc := mdParts findings
  (String.join
    ["# Upgrade project " ++ ctx.projectRootPath.getLastD "" ++ " to v" ++
       ctx.toVersion, EOL,
     EOL,
     "Date: " ++ ctx.today, EOL,
     EOL,
     "## Findings", EOL,
     EOL,
     "Following is the list of steps required to upgrade your project to SharePoint Framework version " ++
       ctx.toVersion ++ ".", EOL,
     EOL,
     String.join acc.findingsToReport,
     "## Summary", EOL,
     EOL,
     "### Execute script", EOL,
     EOL,
     "```sh", EOL,
     String.intercalate EOL acc.commandsToExecute, EOL,
     "```", EOL,
     EOL,
     "### Modify files", EOL,
     EOL,
     String.intercalate EOL
       (acc.modificationPerFile.map
         (mdFileSection acc.modificationTypePerFile)),
     EOL]).trim

/-- One record of the default (summary) output: only the finding's `id`
and `resolution` (lines 124-129). -/
structure SummaryRecord where
  id : String
  resolution : String
deriving DecidableEq, Repr

/-- What `cmd.log` receives for the final report, by output format. -/
inductive Output where
  | json (findings : List Finding)
  | md (report : String)
  | summary (records : List SummaryRecord)
deriving DecidableEq, Repr

/-- The output `switch` of `commandAction` (lines 116-130): `json` logs the
findings verbatim, `md` logs the narrative report, anything else logs the
reduced summary records. -/
def renderOutput (ctx : MdCtx) (output : Option String)
    (findings : List Finding) : Output :=
  if output = some "json" then Output.json findings
  else if output = some "md" then Output.md (getMdReport ctx findings)
  else Output.summary (findings.map (fun f => ⟨f.id, f.resolution⟩))

/-- The `versionsToUpgradeTo.forEach` loop of `commandAction`
(lines 97-108), faithful to the source's control flow: a catalog that
fails to load reports an error (the `return` inside the `forEach` callback
only ends that iteration), and the loop continues with the remaining
versions; a catalog that loads has each of its rules visit the project,
appending to the shared accumulator. Returns the reported load errors in
order and the accumulated findings. -/
def runCatalogs (load : String → Except String (List Rule)) (project : Project)
    (versions : List String) : List String × List Finding :=
  versions.foldl
    (fun acc v =>
      match load v with
      | .ok rules => (acc.1, rules.foldl (fun fs r => r project fs) acc.2)
      | .error e => (acc.1 ++ [e], acc.2))
    ([], [])

/-- The observable outcome of one `commandAction` invocation: the reports
logged through `cmd.log` (verbose/debug progress logging is not modelled:
the model corresponds to the default flags), every invocation of the
completion callback `cb` in order (`none` is the success call), and the
trace of filesystem operations. -/
structure CmdResult where
  logs : List Output
  cbCalls : List (Option CmdError)
  trace : List FsOp

/-- The target-version defaulting of `commandAction` (line 55):
`args.options.toVersion ? args.options.toVersion : <newest supported>`
(a falsy — absent or empty — `--toVersion` defaults to the newest
supported version). -/
def effectiveToVersion (toVersionOpt : Option String) : String :=
  match toVersionOpt with
  | some s => if s = "" then supportedVersions.getLastD "" else s
  | none => supportedVersions.getLastD ""

/-- `commandAction` (lines 48-133): find the project root; default the
target version to the newest supported one (a falsy `--toVersion` also
defaults); validate the plan; collect the project; run the rule catalogs;
dedupe; log the report in the selected format; call `cb`. -/
def commandActionModel (env : Env) (toVersionOpt outputOpt : Option String) :
    CmdResult :=
  match getProjectRootT env.fs env.cwd with
  | (none, t0) =>
    { logs := [], cbCalls := [some CmdError.noProjectRootFolder], trace := t0 }
  | (some root, t0) =>
    let toVersion := effectiveToVersion toVersionOpt
    if toVersion ∈ supportedVersions then
      let pv := getProjectVersionT env root
      match planUpgrade supportedVersions toVersion pv.1 with
      | .error e =>
        { logs := [], cbCalls := [some e], trace := t0 ++ pv.2 }
      | .ok versionsToUpgradeTo =>
        let pr := getProjectT env root
        let run := runCatalogs env.loadCatalog pr.1 versionsToUpgradeTo
        let findings := dedupe run.2
        let out := renderOutput
          { projectRootPath := root, toVersion := toVersion,
            today := env.today }
          outputOpt findings
        { logs := [out]
          cbCalls :=
            run.1.map (fun e => some (CmdError.ruleCatalogLoadFailed e)) ++
              [none]
          trace := t0 ++ pv.2 ++ pr.2 }
    else
      { logs := []
        cbCalls := [some (CmdError.unsupportedTargetVersion toVersion
          supportedVersions)]
        trace := t0 }

/-- Written to the spec's words, for comparison with the source-derived
functions: keep, for each distinct key, only the first occurrence in input
order ("keeps, for each distinct id, only the first occurrence
encountered; drops later duplicates"). -/
def keepFirstBy {α β : Type} [DecidableEq β] (key : α → β) :
    List α → List α
  | [] => []
  | x :: rest => x :: keepFirstBy key (rest.filter (fun y => key y ≠ key x))
termination_by l => l.length
decreasing_by
  simp only [List.length_cons]
  exact Nat.lt_succ_of_le (List.length_filter_le _ _)

/-- Accumulator form of `keepFirstBy`: drop an element whose key was
already seen, keep it and record its key otherwise. Used to relate the
index-based dedupe of the source to `keepFirstBy`. -/
def keepFirstBySeen {α β : Type} [DecidableEq β] (key : α → β)
    (seen : List β) : List α → List α
  | [] => []
  | x :: rest =>
    if key x ∈ seen then keepFirstBySeen key seen rest
    else x :: keepFirstBySeen key (key x :: seen) rest

/-- Written to the spec's words, for comparison with `getProjectRoot`: the
chain of ancestor directories of a path, nearest first, ending with the
filesystem root. -/
def ancestorChain (p : List String) : List (List String) :=
  if p = [] then [[]]
  else p :: ancestorChain p.dropLast
termination_by p.length
decreasing_by
  cases p with
  | nil => simp_all
  | cons a l => simp only [List.length_dropLast, List.length_cons]; omega

/-- The findings `getMdReport` groups per file: every finding whose
`resolutionType` is not `cmd`. -/
def editFindings (l : List Finding) : List Finding :=
  l.filter (fun f => ¬ f.resolutionType = "cmd")

/-- The file of each per-file-grouped finding, in finding order. -/
def editFiles (l : List Finding) : List String :=
  (editFindings l).map (·.file)

/-- The per-file-grouped findings pertaining to one file, in finding
order. -/
def fileEdits (l : List Finding) (file : String) : List Finding :=
  (editFindings l).filter (fun f => f.file = file)

/-- Written to the spec's words, for comparison with `mdParts`: the
command script is every `cmd` resolution in finding order. -/
def cmdsOf (l : List Finding) : List String :=
  (l.filter (fun f => f.resolutionType = "cmd")).map (·.resolution)

/-- The narrative blocks of every finding, in finding order. -/
def reportsOf (l : List Finding) : List String :=
  l.flatMap findingBlockStrings

/-- The resolutions grouped under one file, in finding order. -/
def fileResolutions (l : List Finding) (file : String) : List String :=
  (fileEdits l file).map (·.resolution)

/-- The block type recorded for one grouped file: the first non-falsy
`resolutionType` among the file's grouped findings (the empty string is
falsy in JavaScript, so an empty-string type can be overwritten by a later
one), or the empty string when all are falsy. -/
def fileBlockType (l : List Finding) (file : String) : String :=
  (((fileEdits l file).map (·.resolutionType)).find? (fun t => ¬ t = "")).getD ""

/-- Written to the spec's words, for comparison with `mdParts`: the
per-file modification groups, keyed in first-appearance order of the files
and holding each file's resolutions in finding order. -/
def mpfOf (l : List Finding) : List (String × List String) :=
  (keepFirstBy (fun s => s) (editFiles l)).map
    (fun file => (file, fileResolutions l file))

/-- The per-file modification block types, keyed like `mpfOf`. -/
def mtfOf (l : List Finding) : List (String × String) :=
  (keepFirstBy (fun s => s) (editFiles l)).map
    (fun file => (file, fileBlockType l file))

/-- The canonical value of all four `getMdReport` accumulators after
processing a finding list. -/
def accOf (l : List Finding) : MdAcc :=
  ⟨cmdsOf l, reportsOf l, mpfOf l, mtfOf l⟩

/-- A filesystem with no files at all, for witnesses. -/
def emptyFS : FS :=
  { pathExists := fun _ => false
    readFile := fun _ => none
    listFiles := fun _ => [] }

/-- An environment over the empty filesystem, for witnesses. -/
def emptyEnv : Env :=
  { fs := emptyFS
    parseJson := fun _ => none
    stripComments := fun s => s
    loadCatalog := fun _ => Except.error "not found"
    cwd := []
    today := "" }

/-- A concrete project for the catalog-failure scenario: a root directory
`home/proj` holding `package.json` and a `.yo-rc.json` whose generator
metadata reports version `1.4.1`. -/
def bugFS : FS :=
  { pathExists := fun p =>
      p = ["home", "proj", "package.json"] ∨ p = ["home", "proj", ".yo-rc.json"]
    readFile := fun p =>
      if p = ["home", "proj", ".yo-rc.json"] then some "yorc"
      else if p = ["home", "proj", "package.json"] then some "pkg"
      else none
    listFiles := fun _ => [] }

/-- The environment of the catalog-failure scenario: the project is at
version `1.4.1` and `require` of the `1.5.0` rule catalog throws. -/
def bugEnv : Env :=
  { fs := bugFS
    parseJson := fun s =>
      if s = "yorc" then
        some (JValue.jobj
          [("@microsoft/generator-sharepoint",
            JValue.jobj [("version", JValue.jstr "1.4.1")])])
      else none
    stripComments := fun s => s
    loadCatalog := fun _ => Except.error "Cannot find module"
    cwd := ["home", "proj"]
    today := "1/1/2019" }

/-- A rule emitting one fixed finding, for the loop-continuation
scenario. -/
def demoFinding : Finding :=
  { id := "FN000001"
    title := "t"
    description := "d"
    severity := "Required"
    file := "./package.json"
    resolutionType := "cmd"
    resolution := "npm i x" }

/-- A catalog loader whose `vNew` catalog fails to load and whose `vOld`
catalog contains one rule emitting `demoFinding`, for the
loop-continuation scenario. -/
def demoLoad : String → Except String (List Rule) :=
  fun v =>
    if v = "vOld" then
      Except.ok [fun _ acc => acc ++ [demoFinding]]
    else Except.error "Cannot find module"

/-- Findings for the md-grouping witness: two edits to the same file with
different resolution types, one edit to another file, one command. -/
def demoEditFindings : List Finding :=
  [{ id := "FN1", title := "a", description := "", severity := "Required",
     file := "t.json", resolutionType := "json", resolution := "r1" },
   { id := "FN2", title := "b", description := "", severity := "Required",
     file := "t.json", resolutionType := "text", resolution := "r2" },
   { id := "FN3", title := "c", description := "", severity := "Required",
     file := "u.json", resolutionType := "json", resolution := "r3" },
   { id := "FN4", title := "d", description := "", severity := "Required",
     file := "./", resolutionType := "cmd", resolution := "npm i y" }]

/-! ## Helper lemmas -/

theorem lookupA_nil {α : Type} (k : String) : lookupA ([] : List (String × α)) k = none := rfl

theorem lookupA_append {α : Type} (l₁ l₂ : List (String × α)) (k : String) :
    lookupA (l₁ ++ l₂) k = ((lookupA l₁ k).or (lookupA l₂ k)) := by
  induction l₁ with
  | nil => simp [lookupA]
  | cons p l ih =>
    by_cases h : p.1 = k <;> simp [lookupA, h, ih]

theorem lookupA_mapKeys {α : Type} (keys : List String) (g : String → α)
    (k : String) :
    lookupA (keys.map (fun x => (x, g x))) k =
      if k ∈ keys then some (g k) else none := by
  induction keys with
  | nil => simp [lookupA]
  | cons a as ih =>
    by_cases h : a = k
    · subst h; simp [lookupA]
    · simp only [List.map_cons, lookupA, h, if_false, ih, List.mem_cons]
      have : ¬ k = a := fun hk => h hk.symm
      simp [this]

theorem setA_mapKeys {α : Type} (keys : List String) (g : String → α)
    (k : String) (v : α) (hk : k ∈ keys) :
    setA (keys.map (fun x => (x, g x))) k v =
      keys.map (fun x => (x, if x = k then v else g x)) := by
  unfold setA
  rw [lookupA_mapKeys]
  simp only [hk, if_true, Option.isSome_some, if_pos]
  rw [List.map_map]
  apply List.map_congr_left
  intro a _
  by_cases h : a = k
  · subst h; simp
  · simp [h]

theorem setA_new {α : Type} (l : List (String × α)) (k : String) (v : α)
    (h : lookupA l k = none) : setA l k v = l ++ [(k, v)] := by
  unfold setA
  simp [h]

/-! ## C1: the planner's successful output -/

/-- C1: for every pair of versions present in the supported-version
catalog with the current one preceding the target, the planner's output is
the slice of the catalog strictly after the current version up to and
including the target, reversed (most recent first). -/
theorem plan_ok_is_reversed_slice (cur tgt : String)
    (hc : cur ∈ supportedVersions) (ht : tgt ∈ supportedVersions)
    (hlt : supportedVersions.indexOf cur < supportedVersions.indexOf tgt) :
    planUpgrade supportedVersions tgt (some cur) =
      Except.ok
        (((supportedVersions.drop (supportedVersions.indexOf cur + 1)).take
            (supportedVersions.indexOf tgt - supportedVersions.indexOf cur)).reverse) := by
  simp only [supportedVersions, List.mem_cons, List.mem_singleton,
    List.not_mem_nil, or_false] at hc ht
  rcases hc with rfl | rfl <;> rcases ht with rfl | rfl <;>
    first
    | rfl
    | exact absurd hlt (by decide)

/-- Witness for C1 at the only strictly increasing pair of the catalog. -/
theorem plan_ok_is_reversed_slice_witness :
    "1.4.1" ∈ supportedVersions ∧ "1.5.0" ∈ supportedVersions ∧
      supportedVersions.indexOf "1.4.1" < supportedVersions.indexOf "1.5.0" ∧
      planUpgrade supportedVersions "1.5.0" (some "1.4.1") =
        Except.ok ["1.5.0"] := by
  refine ⟨by decide, by decide, by decide, ?_⟩
  have h := plan_ok_is_reversed_slice "1.4.1" "1.5.0" (by decide) (by decide)
    (by decide)
  exact h.trans rfl

/-! ## C8: the default (summary) output format -/

/-- C8: whenever the output option is neither `json` nor `md`, the logged
report is the list of reduced records holding exactly each finding's `id`
and `resolution`, one per finding in finding order, and for an empty
finding list it is the empty list (not an error). -/
theorem summary_output_shape (ctx : MdCtx) (out : Option String)
    (findings : List Finding) (h1 : out ≠ some "json") (h2 : out ≠ some "md") :
    renderOutput ctx out findings =
        Output.summary (findings.map (fun f => ⟨f.id, f.resolution⟩)) ∧
      renderOutput ctx out [] = Output.summary [] := by
  constructor <;> simp [renderOutput, h1, h2]

/-- Witness for C8 with the default output option and a one-finding
list. -/
theorem summary_output_shape_witness :
    renderOutput ⟨[], "", ""⟩ none [demoFinding] =
        Output.summary [⟨"FN000001", "npm i x"⟩] ∧
      renderOutput ⟨[], "", ""⟩ none [] = Output.summary [] := by
  have h := summary_output_shape ⟨[], "", ""⟩ none [demoFinding]
    (by decide) (by decide)
  exact ⟨h.1.trans (by decide), h.2⟩

/-! ## C4: the planner's error cases -/

theorem append_none_singleton {β : Type} (xs : List (Option β)) (y : β) :
    xs ++ [none] ≠ [some y] := by
  intro h
  cases xs with
  | nil => simp at h
  | cons a as =>
    have hlen := congrArg List.length h
    simp at hlen

/-- C4: the planner reports the unsupported-target error when the target
is not in the catalog, the version-not-determined error when detection
produced nothing or a falsy (empty) version string (line 63's
`if (!this.projectVersion)`), the unsupported-current error when the
detected (truthy) current version is not in the catalog (the checks run
in that order), the downgrade rejection when the current version's
position follows the target's, and the already-up-to-date rejection when
their positions are equal; and whenever the plan fails — or the target is
unsupported — nothing is logged, so no report is produced. -/
theorem plan_error_cases (cur tgt : String) :
    (tgt ∉ supportedVersions →
      planUpgrade supportedVersions tgt (some cur) =
        Except.error (CmdError.unsupportedTargetVersion tgt supportedVersions)) ∧
    (tgt ∈ supportedVersions →
      planUpgrade supportedVersions tgt none =
          Except.error CmdError.versionNotDetermined ∧
        planUpgrade supportedVersions tgt (some "") =
          Except.error CmdError.versionNotDetermined) ∧
    (tgt ∈ supportedVersions → ¬ cur = "" → cur ∉ supportedVersions →
      planUpgrade supportedVersions tgt (some cur) =
        Except.error (CmdError.unsupportedCurrentVersion cur)) ∧
    (cur ∈ supportedVersions → tgt ∈ supportedVersions →
      supportedVersions.indexOf cur > supportedVersions.indexOf tgt →
      planUpgrade supportedVersions tgt (some cur) =
        Except.error CmdError.cannotDowngrade) ∧
    (cur ∈ supportedVersions → tgt ∈ supportedVersions →
      supportedVersions.indexOf cur = supportedVersions.indexOf tgt →
      planUpgrade supportedVersions tgt (some cur) =
        Except.error CmdError.noUpgradeNeeded) ∧
    (∀ (env : Env) (toVersionOpt outputOpt : Option String)
        (root : List String) (t0 : List FsOp) (e : CmdError),
      getProjectRootT env.fs env.cwd = (some root, t0) →
      effectiveToVersion toVersionOpt ∈ supportedVersions →
      planUpgrade supportedVersions (effectiveToVersion toVersionOpt)
          (getProjectVersionT env root).1 = Except.error e →
      (commandActionModel env toVersionOpt outputOpt).logs = [] ∧
        (commandActionModel env toVersionOpt outputOpt).cbCalls =
          [some e]) ∧
    (∀ (env : Env) (toVersionOpt outputOpt : Option String)
        (root : List String) (t0 : List FsOp),
      getProjectRootT env.fs env.cwd = (some root, t0) →
      effectiveToVersion toVersionOpt ∉ supportedVersions →
      (commandActionModel env toVersionOpt outputOpt).logs = [] ∧
        (commandActionModel env toVersionOpt outputOpt).cbCalls =
          [some (CmdError.unsupportedTargetVersion
            (effectiveToVersion toVersionOpt) supportedVersions)]) := by
  refine ⟨?_, ?_, ?_, ?_, ?_, ?_, ?_⟩
  · intro h
    simp [planUpgrade, h]
  · intro ht
    constructor <;> simp [planUpgrade, ht]
  · intro ht hne hc
    simp [planUpgrade, ht, hne, hc]
  · intro hc ht hgt
    have hne : ¬ cur = "" := by
      rintro rfl
      revert hc
      decide
    simp [planUpgrade, ht, hc, hgt, hne]
  · intro hc ht heq
    have hne : ¬ cur = "" := by
      rintro rfl
      revert hc
      decide
    simp [planUpgrade, ht, hc, heq, hne]
  · intro env a b root t0 e hr hm he
    constructor <;> simp only [commandActionModel, hr, hm, if_true, he]
  · intro env a b root t0 hr hm
    constructor <;> simp only [commandActionModel, hr, hm, if_false]

/-- Witness for C4, instantiating each planner error at a concrete input
(including the falsy empty-string detected version), and the no-report
consequence on a concrete already-up-to-date run. -/
theorem plan_error_cases_witness :
    planUpgrade supportedVersions "2.0.0" (some "1.4.1") =
        Except.error (CmdError.unsupportedTargetVersion "2.0.0" supportedVersions) ∧
      planUpgrade supportedVersions "1.5.0" none =
        Except.error CmdError.versionNotDetermined ∧
      planUpgrade supportedVersions "1.5.0" (some "") =
        Except.error CmdError.versionNotDetermined ∧
      planUpgrade supportedVersions "1.5.0" (some "1.0.0") =
        Except.error (CmdError.unsupportedCurrentVersion "1.0.0") ∧
      planUpgrade supportedVersions "1.4.1" (some "1.5.0") =
        Except.error CmdError.cannotDowngrade ∧
      planUpgrade supportedVersions "1.5.0" (some "1.5.0") =
        Except.error CmdError.noUpgradeNeeded ∧
      (commandActionModel bugEnv (some "1.4.1") none).logs = [] ∧
      (commandActionModel bugEnv (some "1.4.1") none).cbCalls =
        [some CmdError.noUpgradeNeeded] := by
  have hroot : getProjectRootT bugEnv.fs bugEnv.cwd =
      (some ["home", "proj"],
       [FsOp.statPath ["home", "proj", "package.json"]]) := by
    rw [getProjectRootT,
      if_pos (show bugEnv.fs.pathExists (bugEnv.cwd ++ ["package.json"]) =
        true by decide)]
    decide
  have hnd := (plan_error_cases "" "1.5.0").2.1 (by decide)
  have hnr := (plan_error_cases "1.4.1" "1.4.1").2.2.2.2.2.1 bugEnv
    (some "1.4.1") none ["home", "proj"]
    [FsOp.statPath ["home", "proj", "package.json"]]
    CmdError.noUpgradeNeeded hroot (by decide) rfl
  exact ⟨(plan_error_cases "1.4.1" "2.0.0").1 (by decide),
    hnd.1, hnd.2,
    (plan_error_cases "1.0.0" "1.5.0").2.2.1 (by decide) (by decide) (by decide),
    (plan_error_cases "1.5.0" "1.4.1").2.2.2.1 (by decide) (by decide) (by decide),
    (plan_error_cases "1.5.0" "1.5.0").2.2.2.2.1 (by decide) (by decide) (by decide),
    hnr.1, hnr.2⟩

/-! ## C10: termination and correctness of the project-root search -/

/-- C10: the project-root search returns the nearest ancestor directory
(the starting directory included) containing a `package.json`, and `none`
when no ancestor does; it is total (a terminating Lean function) because
the recursion stops at the filesystem root, which is its own parent. -/
theorem projectRoot_is_nearest_ancestor (fs : FS) (p : List String) :
    (getProjectRootT fs p).1 =
      (ancestorChain p).find?
        (fun q => fs.pathExists (q ++ ["package.json"])) := by
  generalize hn : p.length = n
  induction n using Nat.strong_induction_on generalizing p with
  | _ n ih =>
    rw [getProjectRootT, ancestorChain]
    by_cases h1 : fs.pathExists (p ++ ["package.json"])
    · by_cases hp : p = []
      · subst hp
        simp only [List.nil_append] at h1
        simp [h1, List.find?]
      · simp [h1, hp, List.find?]
    · by_cases hp : p = []
      · subst hp
        simp only [List.nil_append] at h1
        simp [h1, List.find?]
      · simp only [h1, if_neg hp, Bool.false_eq_true, if_false]
        rw [List.find?_cons_of_neg _ (by simpa using h1)]
        exact ih p.dropLast.length
          (by
            subst hn
            cases p with
            | nil => exact absurd rfl hp
            | cons a l => simp [List.length_dropLast]) p.dropLast rfl

/-! ## C2: deduplication keeps the first occurrence of each id -/

theorem findIdx_append_of_none {α : Type} (p : α → Bool) (l₁ l₂ : List α)
    (h : ∀ x ∈ l₁, p x = false) :
    (l₁ ++ l₂).findIdx p = l₁.length + l₂.findIdx p := by
  induction l₁ with
  | nil => simp
  | cons a as ih =>
    have ha := h a (List.mem_cons_self a as)
    simp only [List.cons_append, List.findIdx_cons, ha, cond_false,
      List.length_cons]
    rw [ih (fun x hx => h x (List.mem_cons_of_mem a hx))]
    omega

theorem findIdx_append_of_mem {α : Type} (p : α → Bool) (l₁ l₂ : List α)
    (h : ∃ x ∈ l₁, p x = true) :
    (l₁ ++ l₂).findIdx p = l₁.findIdx p := by
  induction l₁ with
  | nil => simp at h
  | cons a as ih =>
    by_cases pa : p a = true
    · simp [List.findIdx_cons, pa]
    · have pa' : p a = false := by simpa using pa
      rcases h with ⟨x, hx, hpx⟩
      rcases List.mem_cons.mp hx with rfl | hx'
      · exact absurd hpx pa
      · simp only [List.cons_append, List.findIdx_cons, pa', cond_false]
        rw [ih ⟨x, hx', hpx⟩]

theorem keepFirstBy_nil {α β : Type} [DecidableEq β] (key : α → β) :
    keepFirstBy key ([] : List α) = [] := by
  rw [keepFirstBy.eq_def]

theorem keepFirstBy_cons {α β : Type} [DecidableEq β] (key : α → β)
    (x : α) (l : List α) :
    keepFirstBy key (x :: l) =
      x :: keepFirstBy key (l.filter (fun y => key y ≠ key x)) := by
  rw [keepFirstBy.eq_def]

theorem keepFirstBySeen_congr {α β : Type} [DecidableEq β] (key : α → β)
    (l : List α) :
    ∀ s₁ s₂ : List β, (∀ b, b ∈ s₁ ↔ b ∈ s₂) →
      keepFirstBySeen key s₁ l = keepFirstBySeen key s₂ l := by
  induction l with
  | nil => intro s₁ s₂ _; rfl
  | cons x rest ih =>
    intro s₁ s₂ h
    by_cases hx : key x ∈ s₁
    · simp [keepFirstBySeen, hx, (h _).mp hx, ih s₁ s₂ h]
    · have hx2 : key x ∉ s₂ := fun hc => hx ((h _).mpr hc)
      simp only [keepFirstBySeen, hx, hx2, if_false]
      rw [ih (key x :: s₁) (key x :: s₂) (by intro b; simp [h b])]

theorem keepFirstBySeen_eq_filter {α β : Type} [DecidableEq β] (key : α → β)
    (l : List α) :
    ∀ seen : List β,
      keepFirstBySeen key seen l =
        keepFirstBy key (l.filter (fun x => key x ∉ seen)) := by
  induction l with
  | nil => intro seen; simp [keepFirstBySeen, keepFirstBy_nil]
  | cons x rest ih =>
    intro seen
    rw [List.filter_cons, keepFirstBySeen]
    by_cases hx : key x ∈ seen
    · have hb : ¬ ((decide (key x ∉ seen)) = true) := by simpa using hx
      rw [if_pos hx, if_neg hb]
      exact ih seen
    · have hb : (decide (key x ∉ seen)) = true := by simpa using hx
      rw [if_neg hx, if_pos hb]
      rw [keepFirstBy_cons, List.filter_filter]
      rw [ih (key x :: seen)]
      congr 1
      congr 1
      apply List.filter_congr
      intro y _
      by_cases h1 : key y = key x <;> by_cases h2 : key y ∈ seen <;>
        simp [h1, h2]

theorem dedupe_chunk (L : List Finding) :
    ∀ (suf pre : List Finding), L = pre ++ suf →
      ((List.enumFrom pre.length suf).filter
          (fun q => L.findIdx (fun f1 => f1.id == q.2.id) == q.1)).map
            Prod.snd =
        keepFirstBySeen (fun f => f.id) (pre.map (fun f => f.id)) suf := by
  intro suf
  induction suf with
  | nil => intro pre _; simp [keepFirstBySeen]
  | cons f rest ih =>
    intro pre hL
    rw [List.enumFrom_cons, List.filter_cons]
    by_cases hmem : f.id ∈ pre.map (fun g => g.id)
    · have hidx : L.findIdx (fun f1 => f1.id == f.id) < pre.length := by
        subst hL
        have hex : ∃ x ∈ pre, (x.id == f.id) = true := by
          rcases List.mem_map.mp hmem with ⟨g, hg, hgid⟩
          exact ⟨g, hg, by simp [hgid]⟩
        rw [findIdx_append_of_mem _ _ _ hex]
        exact List.findIdx_lt_length_of_exists hex
      have hcond : (List.findIdx (fun f1 => f1.id == (pre.length, f).2.id) L ==
          (pre.length, f).1) = false := by
        have hne : List.findIdx (fun f1 => f1.id == f.id) L ≠ pre.length := by
          omega
        simpa using hne
      rw [hcond]
      simp only [Bool.false_eq_true, if_false]
      have := ih (pre ++ [f]) (by rw [hL, List.append_assoc]; rfl)
      simp only [List.length_append, List.length_singleton] at this
      rw [this]
      rw [keepFirstBySeen_congr (fun f => f.id) rest
        ((pre ++ [f]).map (fun f => f.id)) (pre.map (fun f => f.id))
        (by
          intro b
          simp only [List.map_append, List.map_cons, List.map_nil,
            List.mem_append, List.mem_singleton]
          constructor
          · rintro (hb | rfl)
            · exact hb
            · exact hmem
          · intro hb; exact Or.inl hb)]
      simp [keepFirstBySeen, hmem]
    · have hcond : L.findIdx (fun f1 => f1.id == f.id) = pre.length := by
        subst hL
        have hnone : ∀ x ∈ pre, (x.id == f.id) = false := by
          intro x hx
          by_contra hc
          have hx2 : x.id = f.id := by
            have : (x.id == f.id) = true := by
              cases h : (x.id == f.id) with
              | false => exact absurd h hc
              | true => rfl
            simpa using this
          exact hmem (List.mem_map.mpr ⟨x, hx, hx2⟩)
        rw [findIdx_append_of_none _ _ _ hnone]
        simp [List.findIdx_cons]
      have hcondb : (List.findIdx (fun f1 => f1.id == (pre.length, f).2.id) L ==
          (pre.length, f).1) = true := by
        simpa using hcond
      rw [hcondb]
      simp only [if_true, List.map_cons]
      have := ih (pre ++ [f]) (by rw [hL, List.append_assoc]; rfl)
      simp only [List.length_append, List.length_singleton] at this
      rw [this]
      rw [keepFirstBySeen_congr (fun f => f.id) rest
        ((pre ++ [f]).map (fun f => f.id)) (f.id :: pre.map (fun f => f.id))
        (by intro b; simp [or_comm])]
      simp [keepFirstBySeen, hmem]

/-- C2: deduplication keeps, for each distinct id, exactly the first
occurrence in input order (equality with the canonical first-occurrence
filter) and preserves the relative order of the kept findings (the result
is a sublist of the input). -/
theorem dedupe_keeps_first_occurrences (l : List Finding) :
    dedupe l = keepFirstBy (fun f => f.id) l ∧ (dedupe l).Sublist l := by
  constructor
  · have h0 := dedupe_chunk l l [] (by simp)
    simp only [List.length_nil, List.map_nil] at h0
    unfold dedupe
    rw [show l.enum = List.enumFrom 0 l from rfl, h0,
      keepFirstBySeen_eq_filter]
    congr 1
    rw [List.filter_eq_self]
    intro a _
    simp
  · unfold dedupe
    have h := (List.filter_sublist (p := fun q : Nat × Finding =>
      l.findIdx (fun f1 => f1.id == q.2.id) == q.1) l.enum).map Prod.snd
    rwa [List.enum_map_snd] at h

/-! ## C5: missing or unparseable documents never fail construction -/

theorem readConfigT_fail (env : Env) (p : List String)
    (h : env.fs.pathExists p = false ∨
      ∀ s, env.fs.readFile p = some s →
        env.parseJson (env.stripComments s) = none) :
    (readConfigT env p).1 = none := by
  unfold readConfigT
  rcases h with h | h
  · simp [h]
  · by_cases he : env.fs.pathExists p
    · simp only [he, if_true]
      cases hr : env.fs.readFile p with
      | none => simp
      | some s => simp [h s hr]
    · simp [he]

/-- C5: project construction is a total function (it never fails), a
recognized configuration document whose file is missing or whose content
fails to parse leaves its `Project` slot unset, and a manifest file whose
content fails to parse (or whose read throws) is not appended to the
project's manifests. -/
theorem bad_documents_left_absent (env : Env) (root : List String) :
    (∀ k : ConfigDocKind,
      (env.fs.pathExists (root ++ k.relPath) = false ∨
        ∀ s, env.fs.readFile (root ++ k.relPath) = some s →
          env.parseJson (env.stripComments s) = none) →
      (getProjectT env root).1.slot k = none) ∧
    (∀ f : List String,
      (∀ s, env.fs.readFile f = some s →
        env.parseJson (env.stripComments s) = none) →
      ∀ m ∈ (getProjectT env root).1.manifests, m.path ≠ f) := by
  constructor
  · intro k h
    cases k <;>
      simp only [getProjectT, Project.slot] <;>
      exact readConfigT_fail env _ h
  · intro f hcond m hm heq
    simp only [getProjectT] at hm
    rcases List.mem_filterMap.mp hm with ⟨g, hg, hsome⟩
    cases hr : env.fs.readFile g with
    | none =>
      rw [hr] at hsome
      exact Option.noConfusion hsome
    | some s =>
      rw [hr] at hsome
      have hsome2 : (match env.parseJson (env.stripComments s) with
          | some v => some ({ value := v, path := g } : Manifest)
          | none => none) = some m := hsome
      cases hp : env.parseJson (env.stripComments s) with
      | none =>
        rw [hp] at hsome2
        exact Option.noConfusion hsome2
      | some v =>
        rw [hp] at hsome2
        simp only [Option.some.injEq] at hsome2
        have hmp : m.path = g := by rw [← hsome2]
        have hfg : g = f := by rw [← hmp, heq]
        rw [hfg] at hr
        exact absurd hp (by simp [hcond s hr])

/-- Witness for C5 on the empty filesystem: the `tsconfig.json` slot is
unset and no manifest is appended. -/
theorem bad_documents_left_absent_witness :
    (getProjectT emptyEnv []).1.slot ConfigDocKind.tsConfigJson = none ∧
      ∀ m ∈ (getProjectT emptyEnv []).1.manifests,
        m.path ≠ ["src", "a.manifest.json"] := by
  refine ⟨(bad_documents_left_absent emptyEnv []).1 ConfigDocKind.tsConfigJson
      (Or.inl rfl),
    (bad_documents_left_absent emptyEnv []).2 ["src", "a.manifest.json"]
      (fun s h => by simp [emptyEnv, emptyFS] at h)⟩

/-! ## C6: the command only inspects the filesystem, it never writes -/

theorem readConfigT_readOnly (env : Env) (p : List String) :
    ∀ op ∈ (readConfigT env p).2, op.readOnly = true := by
  intro op hop
  unfold readConfigT at hop
  split at hop
  · rcases hr : env.fs.readFile p with _ | s <;> rw [hr] at hop <;>
      simp at hop <;> rcases hop with rfl | rfl <;> rfl
  · simp at hop
    subst hop
    rfl

theorem getProjectRootT_readOnly (fs : FS) (p : List String) :
    ∀ op ∈ (getProjectRootT fs p).2, op.readOnly = true := by
  generalize hn : p.length = n
  induction n using Nat.strong_induction_on generalizing p with
  | _ n ih =>
    intro op hop
    rw [getProjectRootT] at hop
    by_cases h1 : fs.pathExists (p ++ ["package.json"])
    · simp [h1] at hop
      subst hop
      rfl
    · by_cases hp : p = []
      · subst hp
        simp only [List.nil_append] at h1 hop
        simp [h1] at hop
        subst hop
        rfl
      · simp only [h1, Bool.false_eq_true, if_false, if_neg hp,
          List.mem_cons] at hop
        rcases hop with rfl | hop
        · rfl
        · exact ih p.dropLast.length
            (by
              subst hn
              cases p with
              | nil => exact absurd rfl hp
              | cons a l => simp [List.length_dropLast]) p.dropLast rfl op hop

theorem getProjectVersionT_readOnly (env : Env) (root : List String) :
    ∀ op ∈ (getProjectVersionT env root).2, op.readOnly = true := by
  intro op hop
  unfold getProjectVersionT at hop
  rcases hv : yoRcVersion env root with _ | v <;>
    rw [hv] at hop <;>
    by_cases he : env.fs.pathExists (root ++ [".yo-rc.json"]) <;>
    simp [he] at hop <;>
    first
    | (subst hop; rfl)
    | (rcases hop with rfl | rfl <;> rfl)
    | (rcases hop with rfl | rfl | rfl <;> rfl)

theorem getProjectT_readOnly (env : Env) (root : List String) :
    ∀ op ∈ (getProjectT env root).2, op.readOnly = true := by
  intro op hop
  simp only [getProjectT, List.append_assoc, List.mem_append,
    List.mem_singleton, List.mem_map] at hop
  rcases hop with h | h | h | h | h | h | h | h | h | h | h
  · exact readConfigT_readOnly env _ op h
  · exact readConfigT_readOnly env _ op h
  · exact readConfigT_readOnly env _ op h
  · exact readConfigT_readOnly env _ op h
  · exact readConfigT_readOnly env _ op h
  · exact readConfigT_readOnly env _ op h
  · exact readConfigT_readOnly env _ op h
  · exact readConfigT_readOnly env _ op h
  · exact readConfigT_readOnly env _ op h
  · exact readConfigT_readOnly env _ op h
  · rcases h with h | ⟨g, _, hg⟩
    · rw [h]
      rfl
    · rw [← hg]
      rfl

/-- C6: on every invocation and for every environment, every filesystem
operation the command performs is an existence check, a file read or a
directory listing — never a write or modification; the report itself is
only delivered to the output log (`CmdResult.logs`). -/
theorem command_never_writes (env : Env) (toVersionOpt outputOpt : Option String) :
    (commandActionModel env toVersionOpt outputOpt).trace.all
      FsOp.readOnly = true := by
  rw [List.all_eq_true]
  intro op hop
  rcases hr : getProjectRootT env.fs env.cwd with ⟨ro, t0⟩
  have ht0 : ∀ o ∈ t0, FsOp.readOnly o = true := by
    have h := getProjectRootT_readOnly env.fs env.cwd
    rw [hr] at h
    exact h
  rcases ro with _ | root
  · simp only [commandActionModel, hr] at hop
    exact ht0 op hop
  · simp only [commandActionModel, hr] at hop
    revert hop
    split
    · split
      · intro hop
        simp only [List.mem_append] at hop
        rcases hop with hop | hop
        · exact ht0 op hop
        · exact getProjectVersionT_readOnly env root op hop
      · intro hop
        simp only [List.mem_append] at hop
        rcases hop with (hop | hop) | hop
        · exact ht0 op hop
        · exact getProjectVersionT_readOnly env root op hop
        · exact getProjectT_readOnly env root op hop
    · intro hop
      exact ht0 op hop

/-! ## C7 and C9: per-file grouping in the md report -/

theorem mem_keepFirstBySeen_id (a : String) (xs : List String) :
    ∀ seen, a ∈ keepFirstBySeen (fun s => s) seen xs ↔ a ∈ xs ∧ a ∉ seen := by
  induction xs with
  | nil => intro seen; simp [keepFirstBySeen]
  | cons x rest ih =>
    intro seen
    by_cases hx : x ∈ seen
    · rw [keepFirstBySeen, if_pos hx, ih seen]
      constructor
      · rintro ⟨h1, h2⟩
        exact ⟨List.mem_cons_of_mem x h1, h2⟩
      · rintro ⟨h1, h2⟩
        rcases List.mem_cons.mp h1 with rfl | h1'
        · exact absurd hx h2
        · exact ⟨h1', h2⟩
    · rw [keepFirstBySeen, if_neg hx]
      constructor
      · intro h
        rcases List.mem_cons.mp h with rfl | h'
        · exact ⟨List.mem_cons_self a rest, hx⟩
        · rcases (ih (x :: seen)).mp h' with ⟨h1, h2⟩
          exact ⟨List.mem_cons_of_mem x h1,
            fun hc => h2 (List.mem_cons_of_mem x hc)⟩
      · rintro ⟨h1, h2⟩
        rcases List.mem_cons.mp h1 with rfl | h1'
        · exact List.mem_cons_self a _
        · by_cases hax : a = x
          · subst hax
            exact List.mem_cons_self a _
          · apply List.mem_cons_of_mem
            apply (ih (x :: seen)).mpr
            exact ⟨h1', fun hc => (List.mem_cons.mp hc).elim hax h2⟩

theorem keepFirstBy_id_eq_seen (xs : List String) :
    keepFirstBy (fun s => s) xs = keepFirstBySeen (fun s => s) [] xs := by
  rw [keepFirstBySeen_eq_filter]
  congr 1
  apply Eq.symm
  rw [List.filter_eq_self]
  intro a _
  simp

theorem mem_keepFirstBy_id (a : String) (xs : List String) :
    a ∈ keepFirstBy (fun s => s) xs ↔ a ∈ xs := by
  rw [keepFirstBy_id_eq_seen]
  simp [mem_keepFirstBySeen_id]

theorem keepFirstBySeen_append {α β : Type} [DecidableEq β] (key : α → β)
    (l₁ l₂ : List α) :
    ∀ seen, keepFirstBySeen key seen (l₁ ++ l₂) =
      keepFirstBySeen key seen l₁ ++
        keepFirstBySeen key (l₁.map key ++ seen) l₂ := by
  induction l₁ with
  | nil => intro seen; simp [keepFirstBySeen]
  | cons x rest ih =>
    intro seen
    rw [List.cons_append, keepFirstBySeen, keepFirstBySeen]
    by_cases hx : key x ∈ seen
    · rw [if_pos hx, if_pos hx, ih seen]
      congr 1
      apply keepFirstBySeen_congr
      intro b
      simp only [List.map_cons, List.mem_append, List.mem_cons]
      constructor
      · rintro (h | h)
        · exact Or.inl (Or.inr h)
        · exact Or.inr h
      · rintro ((rfl | h) | h)
        · exact Or.inr hx
        · exact Or.inl h
        · exact Or.inr h
    · rw [if_neg hx, if_neg hx, ih (key x :: seen), List.cons_append]
      congr 2
      apply keepFirstBySeen_congr
      intro b
      simp only [List.map_cons, List.mem_append, List.mem_cons]
      constructor
      · rintro (h | rfl | h)
        · exact Or.inl (Or.inr h)
        · exact Or.inl (Or.inl rfl)
        · exact Or.inr h
      · rintro ((rfl | h) | h)
        · exact Or.inr (Or.inl rfl)
        · exact Or.inl h
        · exact Or.inr (Or.inr h)

theorem keepFirstBySeen_singleton {α β : Type} [DecidableEq β] (key : α → β)
    (seen : List β) (x : α) :
    keepFirstBySeen key seen [x] =
      if key x ∈ seen then [] else [x] := by
  by_cases hx : key x ∈ seen <;> simp [keepFirstBySeen, hx]

theorem keepFirstBy_id_append (xs : List String) (x : String) :
    keepFirstBy (fun s => s) (xs ++ [x]) =
      if x ∈ xs then keepFirstBy (fun s => s) xs
      else keepFirstBy (fun s => s) xs ++ [x] := by
  rw [keepFirstBy_id_eq_seen, keepFirstBySeen_append, ← keepFirstBy_id_eq_seen,
    keepFirstBySeen_singleton]
  by_cases hx : x ∈ xs <;> simp [hx]

theorem editFindings_append (l : List Finding) (f : Finding) :
    editFindings (l ++ [f]) =
      editFindings l ++ if f.resolutionType = "cmd" then [] else [f] := by
  unfold editFindings
  rw [List.filter_append]
  congr 1
  by_cases h : f.resolutionType = "cmd" <;> simp [h]

theorem editFiles_append (l : List Finding) (f : Finding) :
    editFiles (l ++ [f]) =
      editFiles l ++ if f.resolutionType = "cmd" then [] else [f.file] := by
  unfold editFiles
  rw [editFindings_append, List.map_append]
  congr 1
  by_cases h : f.resolutionType = "cmd" <;> simp [h]

theorem fileEdits_append (l : List Finding) (f : Finding) (k : String) :
    fileEdits (l ++ [f]) k =
      fileEdits l k ++
        if ¬ f.resolutionType = "cmd" ∧ f.file = k then [f] else [] := by
  unfold fileEdits
  rw [editFindings_append, List.filter_append]
  congr 1
  by_cases h1 : f.resolutionType = "cmd"
  · simp [h1]
  · by_cases h2 : f.file = k <;> simp [h1, h2]

theorem fileEdits_nil_of_not_mem (l : List Finding) (k : String)
    (h : k ∉ editFiles l) : fileEdits l k = [] := by
  unfold fileEdits
  rw [List.filter_eq_nil_iff]
  intro g hg
  simp only [decide_eq_true_eq]
  intro hc
  exact h (List.mem_map.mpr ⟨g, hg, hc⟩)

theorem cmdsOf_append (l : List Finding) (f : Finding) :
    cmdsOf (l ++ [f]) =
      cmdsOf l ++ if f.resolutionType = "cmd" then [f.resolution] else [] := by
  unfold cmdsOf
  rw [List.filter_append, List.map_append]
  congr 1
  by_cases h : f.resolutionType = "cmd" <;> simp [h]

theorem reportsOf_append (l : List Finding) (f : Finding) :
    reportsOf (l ++ [f]) = reportsOf l ++ findingBlockStrings f := by
  unfold reportsOf
  rw [List.flatMap_append]
  simp

theorem fileResolutions_append_cmd (l : List Finding) (f : Finding)
    (k : String) (h : f.resolutionType = "cmd") :
    fileResolutions (l ++ [f]) k = fileResolutions l k := by
  unfold fileResolutions
  rw [fileEdits_append]
  simp [h]

theorem fileResolutions_append_other (l : List Finding) (f : Finding)
    (k : String) (h : ¬ f.file = k) :
    fileResolutions (l ++ [f]) k = fileResolutions l k := by
  unfold fileResolutions
  rw [fileEdits_append]
  simp [h]

theorem fileResolutions_append_same (l : List Finding) (f : Finding)
    (h : ¬ f.resolutionType = "cmd") :
    fileResolutions (l ++ [f]) f.file =
      fileResolutions l f.file ++ [f.resolution] := by
  unfold fileResolutions
  rw [fileEdits_append]
  simp [h]

theorem fileBlockType_append_cmd (l : List Finding) (f : Finding)
    (k : String) (h : f.resolutionType = "cmd") :
    fileBlockType (l ++ [f]) k = fileBlockType l k := by
  unfold fileBlockType
  rw [fileEdits_append]
  simp [h]

theorem fileBlockType_append_other (l : List Finding) (f : Finding)
    (k : String) (h : ¬ f.file = k) :
    fileBlockType (l ++ [f]) k = fileBlockType l k := by
  unfold fileBlockType
  rw [fileEdits_append]
  simp [h]

theorem fileBlockType_empty_iff (l : List Finding) (k : String) :
    fileBlockType l k = "" ↔
      ((fileEdits l k).map (·.resolutionType)).find?
        (fun t => ¬ t = "") = none := by
  unfold fileBlockType
  cases hf : ((fileEdits l k).map (·.resolutionType)).find?
      (fun t => ¬ t = "") with
  | none => simp
  | some v =>
    have hv := List.find?_some hf
    simp only [decide_eq_true_eq] at hv
    simp [hv]

theorem fileBlockType_append_same_empty (l : List Finding) (f : Finding)
    (hc : ¬ f.resolutionType = "cmd") (hbt : fileBlockType l f.file = "") :
    fileBlockType (l ++ [f]) f.file = f.resolutionType := by
  have hnone := (fileBlockType_empty_iff l f.file).mp hbt
  unfold fileBlockType
  rw [fileEdits_append, List.map_append, List.find?_append]
  unfold fileBlockType at hnone
  rw [hnone]
  simp only [Option.none_or, hc]
  by_cases ht : f.resolutionType = "" <;> simp [hc, ht]

theorem fileBlockType_append_same_nonempty (l : List Finding) (f : Finding)
    (hbt : ¬ fileBlockType l f.file = "") :
    fileBlockType (l ++ [f]) f.file = fileBlockType l f.file := by
  rcases hf : ((fileEdits l f.file).map (·.resolutionType)).find?
      (fun t => ¬ t = "") with _ | v
  · exact absurd ((fileBlockType_empty_iff l f.file).mpr hf) hbt
  · unfold fileBlockType
    rw [fileEdits_append, List.map_append, List.find?_append, hf]
    simp

theorem mpfOf_append_cmd (l : List Finding) (f : Finding)
    (h : f.resolutionType = "cmd") : mpfOf (l ++ [f]) = mpfOf l := by
  unfold mpfOf
  rw [editFiles_append]
  simp only [h, if_true, List.append_nil]
  apply List.map_congr_left
  intro k _
  rw [fileResolutions_append_cmd l f k h]

theorem mtfOf_append_cmd (l : List Finding) (f : Finding)
    (h : f.resolutionType = "cmd") : mtfOf (l ++ [f]) = mtfOf l := by
  unfold mtfOf
  rw [editFiles_append]
  simp only [h, if_true, List.append_nil]
  apply List.map_congr_left
  intro k _
  rw [fileBlockType_append_cmd l f k h]

theorem mdStep_accOf (l : List Finding) (f : Finding) :
    mdStep (accOf l) f = accOf (l ++ [f]) := by
  by_cases hcmd : f.resolutionType = "cmd"
  · unfold mdStep accOf
    rw [if_pos hcmd, cmdsOf_append, reportsOf_append,
      mpfOf_append_cmd l f hcmd, mtfOf_append_cmd l f hcmd]
    simp [hcmd]
  · unfold mdStep accOf
    rw [if_neg hcmd]
    by_cases hx : f.file ∈ editFiles l
    · have hxk : f.file ∈ keepFirstBy (fun s => s) (editFiles l) :=
        (mem_keepFirstBy_id _ _).mpr hx
      have hklk : lookupA (mpfOf l) f.file =
          some (fileResolutions l f.file) := by
        unfold mpfOf
        rw [lookupA_mapKeys, if_pos hxk]
      have hklt : lookupA (mtfOf l) f.file =
          some (fileBlockType l f.file) := by
        unfold mtfOf
        rw [lookupA_mapKeys, if_pos hxk]
      have hkeys' : keepFirstBy (fun s => s) (editFiles (l ++ [f])) =
          keepFirstBy (fun s => s) (editFiles l) := by
        rw [editFiles_append, if_neg hcmd, keepFirstBy_id_append, if_pos hx]
      have hmpf : mpfOf (l ++ [f]) =
          (keepFirstBy (fun s => s) (editFiles l)).map
            (fun k => (k, if k = f.file
              then fileResolutions l f.file ++ [f.resolution]
              else fileResolutions l k)) := by
        unfold mpfOf
        rw [hkeys']
        apply List.map_congr_left
        intro k _
        by_cases hkf : k = f.file
        · subst hkf
          rw [fileResolutions_append_same l f hcmd]
          simp
        · rw [fileResolutions_append_other l f k (fun hc => hkf hc.symm)]
          simp [hkf]
      have hsetp : setA (mpfOf l) f.file
          (fileResolutions l f.file ++ [f.resolution]) =
          (keepFirstBy (fun s => s) (editFiles l)).map
            (fun k => (k, if k = f.file
              then fileResolutions l f.file ++ [f.resolution]
              else fileResolutions l k)) := by
        unfold mpfOf
        exact setA_mapKeys _ _ _ _ hxk
      by_cases hbt : fileBlockType l f.file = ""
      · have hmtf : mtfOf (l ++ [f]) =
            (keepFirstBy (fun s => s) (editFiles l)).map
              (fun k => (k, if k = f.file then f.resolutionType
                else fileBlockType l k)) := by
          unfold mtfOf
          rw [hkeys']
          apply List.map_congr_left
          intro k _
          by_cases hkf : k = f.file
          · subst hkf
            rw [fileBlockType_append_same_empty l f hcmd hbt]
            simp
          · rw [fileBlockType_append_other l f k (fun hc => hkf hc.symm)]
            simp [hkf]
        have hsett : setA (mtfOf l) f.file f.resolutionType =
            (keepFirstBy (fun s => s) (editFiles l)).map
              (fun k => (k, if k = f.file then f.resolutionType
                else fileBlockType l k)) := by
          unfold mtfOf
          exact setA_mapKeys _ _ _ _ hxk
        simp only [hklk, hklt, Option.isSome_some, if_true, Option.getD_some,
          hbt, hsetp, hsett, cmdsOf_append, reportsOf_append, hmpf, hmtf]
        simp [hcmd]
      · have hmtf : mtfOf (l ++ [f]) = mtfOf l := by
          unfold mtfOf
          rw [hkeys']
          apply List.map_congr_left
          intro k _
          by_cases hkf : k = f.file
          · subst hkf
            rw [fileBlockType_append_same_nonempty l f hbt]
          · rw [fileBlockType_append_other l f k (fun hc => hkf hc.symm)]
        simp only [hklk, hklt, Option.isSome_some, if_true, Option.getD_some,
          hbt, hsetp, cmdsOf_append, reportsOf_append, hmpf, hmtf,
          Bool.false_eq_true, if_false]
        simp [hcmd, hbt]
    · have hxk : f.file ∉ keepFirstBy (fun s => s) (editFiles l) :=
        fun hc => hx ((mem_keepFirstBy_id _ _).mp hc)
      have hklk : lookupA (mpfOf l) f.file = none := by
        unfold mpfOf
        rw [lookupA_mapKeys, if_neg hxk]
      have hklt : lookupA (mtfOf l) f.file = none := by
        unfold mtfOf
        rw [lookupA_mapKeys, if_neg hxk]
      have hkeys' : keepFirstBy (fun s => s) (editFiles (l ++ [f])) =
          keepFirstBy (fun s => s) (editFiles l) ++ [f.file] := by
        rw [editFiles_append, if_neg hcmd, keepFirstBy_id_append, if_neg hx]
      have hres0 : fileResolutions l f.file = [] := by
        unfold fileResolutions
        rw [fileEdits_nil_of_not_mem l f.file hx]
        rfl
      have htype0 : fileBlockType l f.file = "" := by
        unfold fileBlockType
        rw [fileEdits_nil_of_not_mem l f.file hx]
        rfl
      have hmpf1 : mpfOf l ++ [(f.file, ([] : List String))] =
          (keepFirstBy (fun s => s) (editFiles l) ++ [f.file]).map
            (fun k => (k, if k = f.file then []
              else fileResolutions l k)) := by
        rw [List.map_append]
        congr 1
        · unfold mpfOf
          apply List.map_congr_left
          intro k hk
          have hkf : ¬ k = f.file := fun hc => hxk (hc ▸ hk)
          simp [hkf]
        · simp
      have hlk1 : lookupA (mpfOf l ++ [(f.file, ([] : List String))])
          f.file = some [] := by
        rw [lookupA_append, hklk]
        simp [lookupA]
      have hsetp : setA (mpfOf l ++ [(f.file, ([] : List String))]) f.file
          (([] : List String) ++ [f.resolution]) =
          (keepFirstBy (fun s => s) (editFiles l) ++ [f.file]).map
            (fun k => (k, if k = f.file then [f.resolution]
              else fileResolutions l k)) := by
        rw [hmpf1, setA_mapKeys _ _ _ _
          (by simp : f.file ∈ keepFirstBy (fun s => s) (editFiles l) ++
            [f.file])]
        apply List.map_congr_left
        intro k _
        by_cases hkf : k = f.file <;> simp [hkf]
      have hmpf : mpfOf (l ++ [f]) =
          (keepFirstBy (fun s => s) (editFiles l) ++ [f.file]).map
            (fun k => (k, if k = f.file then [f.resolution]
              else fileResolutions l k)) := by
        unfold mpfOf
        rw [hkeys']
        apply List.map_congr_left
        intro k _
        by_cases hkf : k = f.file
        · subst hkf
          rw [fileResolutions_append_same l f hcmd, hres0]
          simp
        · rw [fileResolutions_append_other l f k (fun hc => hkf hc.symm)]
          simp [hkf]
      have hsett : setA (mtfOf l) f.file f.resolutionType =
          mtfOf l ++ [(f.file, f.resolutionType)] := setA_new _ _ _ hklt
      have hmtf : mtfOf (l ++ [f]) =
          mtfOf l ++ [(f.file, f.resolutionType)] := by
        unfold mtfOf
        rw [hkeys', List.map_append]
        congr 1
        · apply List.map_congr_left
          intro k hk
          have hkf : ¬ f.file = k := fun hc => hxk (hc ▸ hk)
          rw [fileBlockType_append_other l f k hkf]
        · simp only [List.map_singleton]
          rw [fileBlockType_append_same_empty l f hcmd htype0]
      simp only [hklk, hklt, Option.isSome_none, Bool.false_eq_true, if_false,
        Option.getD_none, hlk1, Option.getD_some, hsetp, hsett,
        cmdsOf_append, reportsOf_append, hmpf, hmtf]
      simp [hcmd]

theorem foldl_mdStep_accOf (suf : List Finding) :
    ∀ pre, List.foldl mdStep (accOf pre) suf = accOf (pre ++ suf) := by
  induction suf with
  | nil => intro pre; simp
  | cons f rest ih =>
    intro pre
    rw [List.foldl_cons, mdStep_accOf, ih (pre ++ [f])]
    simp

theorem accOf_nil : accOf [] = ⟨[], [], [], []⟩ := by
  unfold accOf cmdsOf reportsOf mpfOf mtfOf editFiles editFindings
  simp [keepFirstBy_nil]

theorem mdParts_eq_accOf (l : List Finding) : mdParts l = accOf l := by
  unfold mdParts
  rw [← accOf_nil]
  exact foldl_mdStep_accOf l []

theorem mem_of_mem_fileEdits {g : Finding} {l : List Finding} {k : String}
    (hg : g ∈ fileEdits l k) : g ∈ l := by
  unfold fileEdits editFindings at hg
  exact List.mem_of_mem_filter (List.mem_of_mem_filter hg)

/-- C7: in the md report's per-file summary, the grouped files appear in
the order in which each file first appears among the edit-type (non-`cmd`)
findings, and the group of each file holds exactly that file's resolutions
in the original finding order. -/
theorem md_grouping_preserves_order (findings : List Finding) :
    (mdParts findings).modificationPerFile.map Prod.fst =
        keepFirstBy (fun s => s) (editFiles findings) ∧
      ∀ file, lookupA (mdParts findings).modificationPerFile file =
        if file ∈ editFiles findings
        then some (fileResolutions findings file) else none := by
  rw [mdParts_eq_accOf]
  constructor
  · unfold accOf mpfOf
    have hcomp : (Prod.fst ∘ fun k : String =>
        (k, fileResolutions findings k)) = id := rfl
    rw [List.map_map, hcomp, List.map_id]
  · intro file
    unfold accOf mpfOf
    rw [lookupA_mapKeys]
    by_cases hf : file ∈ editFiles findings
    · rw [if_pos ((mem_keepFirstBy_id _ _).mpr hf), if_pos hf]
    · rw [if_neg (fun hc => hf ((mem_keepFirstBy_id _ _).mp hc)), if_neg hf]

/-- C9: in the md report, every fenced block of a file is tagged with the
`resolutionType` of the first edit-type finding seen for that file (even
if later findings for the file carry a different type — the recorded type
is the first one), and any finding whose `resolutionType` is not `cmd` is
grouped into the per-file modification section while exactly the `cmd`
resolutions form the command script. The hypothesis excludes the empty
string as a `resolutionType`, which JavaScript treats as falsy and lets a
later finding overwrite. -/
theorem md_block_type_first_wins (findings : List Finding)
    (h : ∀ f ∈ findings, f.resolutionType ≠ "") :
    (∀ file, lookupA (mdParts findings).modificationTypePerFile file =
        ((fileEdits findings file).head?).map (·.resolutionType)) ∧
      (mdParts findings).commandsToExecute =
        (findings.filter (fun f => f.resolutionType = "cmd")).map
          (·.resolution) ∧
      ∀ f ∈ findings, ¬ f.resolutionType = "cmd" →
        ∃ rs, lookupA (mdParts findings).modificationPerFile f.file =
          some rs ∧ f.resolution ∈ rs := by
  rw [mdParts_eq_accOf]
  refine ⟨?_, rfl, ?_⟩
  · intro file
    unfold accOf mtfOf
    rw [lookupA_mapKeys]
    by_cases hf : file ∈ editFiles findings
    · rw [if_pos ((mem_keepFirstBy_id _ _).mpr hf)]
      have hne' : fileEdits findings file ≠ [] := by
        intro hnil
        rcases List.mem_map.mp hf with ⟨g, hg, rfl⟩
        have : g ∈ fileEdits findings g.file := by
          unfold fileEdits
          exact List.mem_filter.mpr ⟨hg, by simp⟩
        rw [hnil] at this
        exact List.not_mem_nil g this
      cases hfe : fileEdits findings file with
      | nil => exact absurd hfe hne'
      | cons g gs =>
        unfold fileBlockType
        rw [hfe, List.map_cons, List.find?_cons_of_pos]
        · simp
        · have hg : g ∈ fileEdits findings file :=
            hfe ▸ List.mem_cons_self g gs
          simpa using h g (mem_of_mem_fileEdits hg)
    · rw [if_neg (fun hc => hf ((mem_keepFirstBy_id _ _).mp hc)),
        fileEdits_nil_of_not_mem _ _ hf]
      rfl
  · intro f hf hcmd
    have hfe : f ∈ editFindings findings := by
      unfold editFindings
      exact List.mem_filter.mpr ⟨hf, by simpa using hcmd⟩
    have hx : f.file ∈ editFiles findings :=
      List.mem_map.mpr ⟨f, hfe, rfl⟩
    refine ⟨fileResolutions findings f.file, ?_, ?_⟩
    · unfold accOf mpfOf
      rw [lookupA_mapKeys, if_pos ((mem_keepFirstBy_id _ _).mpr hx)]
    · unfold fileResolutions
      refine List.mem_map.mpr ⟨f, ?_, rfl⟩
      unfold fileEdits
      exact List.mem_filter.mpr ⟨hfe, by simp⟩

/-- Witness for C9: the first edit for `t.json` has type `json`, the
second has type `text`; the recorded block type for `t.json` is `json`
and the command script holds exactly the one `cmd` resolution. -/
theorem md_block_type_first_wins_witness :
    lookupA (mdParts demoEditFindings).modificationTypePerFile "t.json" =
        some "json" ∧
      (mdParts demoEditFindings).commandsToExecute = ["npm i y"] := by
  have h := md_block_type_first_wins demoEditFindings (by decide)
  constructor
  · rw [h.1 "t.json"]
    decide
  · rw [h.2.1]
    decide

/-! ## C3: behaviour on rule-catalog load failure -/

/-- C3 (code bug): on a project at version `1.4.1` upgrading to `1.5.0`
whose `1.5.0` rule catalog fails to load, the command reports the load
error — but, because the `return` inside the `forEach` callback only ends
that iteration, it does not abort: it still logs a report (the empty
summary) and then invokes the completion callback again with success.
Moreover the loop itself continues with the remaining versions after a
failed catalog: with versions `["vNew", "vOld"]` where `vNew` fails to
load, the rules of `vOld` are still executed and their findings
accumulated. The claim's required behaviour (abort, no further rule
execution, no report) does not hold. -/
theorem catalog_failure_does_not_abort :
    (commandActionModel bugEnv (some "1.5.0") none).cbCalls =
        [some (CmdError.ruleCatalogLoadFailed "Cannot find module"), none] ∧
      (commandActionModel bugEnv (some "1.5.0") none).logs =
        [Output.summary []] ∧
      runCatalogs demoLoad { path := [] } ["vNew", "vOld"] =
        (["Cannot find module"], [demoFinding]) := by
  have hroot : getProjectRootT bugEnv.fs bugEnv.cwd =
      (some ["home", "proj"],
       [FsOp.statPath ["home", "proj", "package.json"]]) := by
    rw [getProjectRootT,
      if_pos (show bugEnv.fs.pathExists (bugEnv.cwd ++ ["package.json"]) =
        true by decide)]
    decide
  refine ⟨?_, ?_, ?_⟩
  · simp only [commandActionModel, hroot]
    decide
  · simp only [commandActionModel, hroot]
    decide
  · decide

end Spfx
